import Mathlib

/-!
Verification of the include-resolution core of the headercount tool
(`headercount/includes.py`).  Strings are modelled as `List Char`, file
paths as a pair of a directory part and a basename (Python `pathlib.Path`
equality is full-path equality, `.name` is the basename), Python dicts as
association lists inserted in first-occurrence order, and Python
exceptions as `Except` with an explicit error type.  Machine text is
ASCII here, so Python's `str.lstrip`/`str.split` whitespace set is
modelled by the ASCII whitespace characters those functions use.
-/

namespace Headercount

/-- Association-list lookup, first entry wins (Python `dict.get`). -/
def alookup {α β : Type} [DecidableEq α] : List (α × β) → α → Option β
  | [], _ => none
  | (k, v) :: rest, x => if x = k then some v else alookup rest x

/-- Lookup with a default value (Python `dict.get(k, d)`). -/
def alookupD {α β : Type} [DecidableEq α] (d : List (α × β)) (k : α) (v : β) : β :=
  (alookup d k).getD v

/-- Python `dict` assignment `d[k] = v`: an existing key keeps its
position and gets the new value, a new key is appended at the end. -/
def dictInsert {α β : Type} [DecidableEq α] (d : List (α × β)) (k : α) (v : β) :
    List (α × β) :=
  if k ∈ d.map Prod.fst then
    d.map (fun pr => if pr.1 = k then (pr.1, v) else pr)
  else d ++ [(k, v)]

/-- The ASCII whitespace characters recognised by Python's
`str.lstrip()` and `str.split()`: space, tab, newline, carriage
return, vertical tab and form feed. -/
def pyIsSpace (c : Char) : Bool :=
  (c == ' ') || (c == Char.ofNat 9) || (c == Char.ofNat 10) ||
    (c == Char.ofNat 13) || (c == Char.ofNat 11) || (c == Char.ofNat 12)

/-- Convert a Lean string literal to the `List Char` representation. -/
def chars (s : String) : List Char := s.toList

/-- The `Include` value class of `includes.py`: it wraps the raw
directive token (delimiters included), cf. `class Include(str)`. -/
structure Include where
  raw : List Char
deriving DecidableEq

/-- `Include.unquoted`: Python `self[1:-1]`. -/
def Include.unquoted (i : Include) : List Char := (i.raw.drop 1).dropLast

/-- `Include.is_system`: Python `self[0] == '<'` (on constructed values
the raw text is never empty). -/
def Include.isSystem (i : Include) : Bool := i.raw.head? == some '<'

/-- The exceptions the module can raise: `IndexError` (out-of-range
subscript), `ValueError` carrying the offending token (raised by
`Include.__new__`), and `AmbiguousName` carrying the offending include
(raised by `_build_include_map`). -/
inductive RunErr where
  | indexError : RunErr
  | valueError : List Char → RunErr
  | ambiguousName : Include → RunErr
deriving DecidableEq

deriving instance DecidableEq for Except

/-- Is an `Except` value a success? -/
def exOk {ε α : Type} : Except ε α → Bool
  | .ok _ => true
  | .error _ => false

/-- `Include.__new__`: `result[0]` raises `IndexError` on the empty
string; otherwise the value is accepted iff the first and last
characters are `<`/`>` or are both `"`; otherwise
`ValueError('cannot find quotes: ...')` is raised. -/
def mkInclude (s : List Char) : Except RunErr Include :=
  match s.head?, s.getLast? with
  | some c0, some c1 =>
      if (c0 = '<' ∧ c1 = '>') ∨ (c0 = '"' ∧ c1 = '"') then .ok (Include.mk s)
      else .error (RunErr.valueError s)
  | _, _ => .error RunErr.indexError

/-- Helper of `splitWs`: accumulate the current token (reversed). -/
def splitWsAux : List Char → List Char → List (List Char)
  | [], [] => []
  | [], tok => [tok.reverse]
  | c :: rest, tok =>
    if pyIsSpace c then
      match tok with
      | [] => splitWsAux rest []
      | _ => tok.reverse :: splitWsAux rest []
    else splitWsAux rest (c :: tok)

/-- Python `str.split()` with no arguments: maximal runs of
non-whitespace characters, no empty tokens. -/
def splitWs (s : List Char) : List (List Char) := splitWsAux s []

/-- One line of `iter_includes`: `line = line.lstrip()`; lines not
starting with `#` are skipped; `parts = line[1:].split()`; `parts[0]`
raises `IndexError` on a bare `#`; lines whose first token is not
`include` are skipped; `parts[1]` raises `IndexError` when missing;
otherwise `Include(parts[1])` is constructed. -/
def processLine (line : List Char) : Except RunErr (Option Include) :=
  match line.dropWhile pyIsSpace with
  | [] => .ok none
  | c :: rest =>
    if c = '#' then
      match splitWs rest with
      | [] => .error RunErr.indexError
      | tok0 :: toks =>
        if tok0 = chars "include" then
          match toks with
          | [] => .error RunErr.indexError
          | tok1 :: _ =>
            match mkInclude tok1 with
            | .error e => .error e
            | .ok i => .ok (some i)
        else .ok none
    else .ok none

/-- `list(iter_includes(file_))`: process the lines top to bottom; the
first exception aborts and discards all yields. -/
def iterIncludes : List (List Char) → Except RunErr (List Include)
  | [] => .ok []
  | line :: rest =>
    match processLine line with
    | .error e => .error e
    | .ok none => iterIncludes rest
    | .ok (some i) =>
      match iterIncludes rest with
      | .error e => .error e
      | .ok tl => .ok (i :: tl)

/-- A file path: Python `pathlib.Path` identity is the whole path,
`path.name` is the final component (`base` here). -/
structure FPath where
  dir : List Char
  base : List Char
deriving DecidableEq

/-- Loop of `get_flat_includes_lists`: read each path in order, parse
it, store the list under the path (Python dict semantics); the first
exception aborts the whole run. -/
def getFlatAux : List (FPath × List (List Char)) → List (FPath × List Include) →
    Except RunErr (List (FPath × List Include))
  | [], acc => .ok acc
  | (p, content) :: rest, acc =>
    match iterIncludes content with
    | .error e => .error e
    | .ok incs => getFlatAux rest (dictInsert acc p incs)

/-- `get_flat_includes_lists(paths)`: the input is the list of paths
together with the text lines each file holds. -/
def getFlatIncludesLists (files : List (FPath × List (List Char))) :
    Except RunErr (List (FPath × List Include)) :=
  getFlatAux files []

/-- The candidate list of `_build_include_map`:
`[path for path in available_files if path.name == include.unquoted()]`. -/
def candidates (avail : List FPath) (i : Include) : List FPath :=
  avail.filter (fun p => p.base == i.unquoted)

/-- Loop of `_build_include_map`: iterate over the observed includes;
more than one candidate raises `AmbiguousName(str(include))`, exactly
one records the mapping, zero records nothing. -/
def buildIncludeMapLoop (avail : List FPath) :
    List Include → List (Include × FPath) → Except RunErr (List (Include × FPath))
  | [], acc => .ok acc
  | i :: rest, acc =>
    match candidates avail i with
    | [] => buildIncludeMapLoop avail rest acc
    | [p] => buildIncludeMapLoop avail rest (dictInsert acc i p)
    | _ => .error (RunErr.ambiguousName i)

/-- `_collect_all_includes(path)`: the direct includes followed by, for
each direct include in order, the already-memoized inclusive list of
the file it resolves to (`inclusive_lists.get(file, [])`), resolved
via `include_map.get`; unresolved includes contribute nothing. -/
def collectAll (flat : List (FPath × List Include)) (imap : Include → Option FPath)
    (incl : List (FPath × List Include)) (p : FPath) : List Include :=
  let direct := alookupD flat p []
  direct ++ (direct.map (fun i =>
    match imap i with
    | some q => alookupD incl q []
    | none => [])).flatten

/-- The `while stack:` loop of `_get_deep_includes_lists`, with the top
of the Python stack (`stack[-1]`) as the head of the list and an
explicit fuel counter standing in for the loop trip count.  A frame
whose cursor is exhausted is popped: the file's list is collected and
memoized and the file leaves `files_being_searched`.  Otherwise the next
include is resolved through the map; a resolved file that is neither
memoized nor in `files_being_searched` is pushed (Python's
`is_to_be_searched` branch), every other include is skipped. -/
def deepStep (flat : List (FPath × List Include)) (imap : Include → Option FPath) :
    Nat → List (FPath × List Include) → List FPath → List (FPath × List Include) →
    List (FPath × List Include)
  | 0, _, _, incl => incl
  | Nat.succ n, stack, bs, incl =>
    match stack with
    | [] => incl
    | (p, []) :: rest =>
      deepStep flat imap n rest (bs.erase p)
        (incl ++ [(p, collectAll flat imap incl p)])
    | (p, i :: is) :: rest =>
      match imap i with
      | none => deepStep flat imap n ((p, is) :: rest) bs incl
      | some q =>
        if q ∈ incl.map Prod.fst ∨ q ∈ bs then
          deepStep flat imap n ((p, is) :: rest) bs incl
        else
          deepStep flat imap n ((q, alookupD flat q []) :: (p, is) :: rest)
            (q :: bs) incl

/-- Number of loop iterations needed to drain a stack when no frame is
ever pushed: one per pending include plus one pop per frame. -/
def deepCost (stack : List (FPath × List Include)) : Nat :=
  (stack.map (fun f => f.2.length + 1)).sum

/-- The traversal as `_get_deep_includes_lists` sets it up: the initial
stack holds one frame per input file with the last file on top, and
`files_being_searched` starts as the full key set. -/
def deepRun (flat : List (FPath × List Include)) (imap : Include → Option FPath)
    (g : Nat) : List (FPath × List Include) :=
  deepStep flat imap g flat.reverse (flat.map Prod.fst) []

/-- `_get_deep_includes_lists` with the enumeration order of the Python
`set` of observed includes made explicit. -/
def getDeepWithEnum (enum : List Include) (flat : List (FPath × List Include)) :
    Except RunErr (List (FPath × List Include)) :=
  match buildIncludeMapLoop (flat.map Prod.fst) enum [] with
  | .error e => .error e
  | .ok m => .ok (deepRun flat (alookup m) (deepCost flat.reverse))

/-- The set of observed includes,
`set(itertools.chain.from_iterable(flat_lists.values()))`, as one
concrete enumeration. -/
def allIncludes (flat : List (FPath × List Include)) : List Include :=
  ((flat.map Prod.snd).flatten).dedup

/-- `_get_deep_includes_lists(flat_lists)`. -/
def getDeepIncludesLists (flat : List (FPath × List Include)) :
    Except RunErr (List (FPath × List Include)) :=
  getDeepWithEnum (allIncludes flat) flat

/-- `get_includes_lists(paths, inclusive)`. -/
def getIncludesLists (files : List (FPath × List (List Char))) (inclusive : Bool) :
    Except RunErr (List (FPath × List Include)) :=
  match getFlatIncludesLists files with
  | .error e => .error e
  | .ok flat => if inclusive then getDeepIncludesLists flat else .ok flat

/-- The unique candidate of an include, if any: the value
`_build_include_map` would store for it. -/
def soloCandidate (avail : List FPath) (i : Include) : Option FPath :=
  match candidates avail i with
  | [p] => some p
  | _ => none

/-- Look a path up in the mapping a successful run returned. -/
def resultLookup (r : Except RunErr (List (FPath × List Include))) (p : FPath) :
    Option (List Include) :=
  match r with
  | .ok m => alookup m p
  | .error _ => none

/-! Concrete fixtures: the three-file scenario of the spec, the
two-file cycle, self-inclusion, and an ambiguous-basename layout. -/

def aF : FPath := FPath.mk (chars "") (chars "a.cpp")

def bF : FPath := FPath.mk (chars "") (chars "b.h")

def cF : FPath := FPath.mk (chars "") (chars "c.h")

def aTxt : List (List Char) := [chars "#include \"b.h\""]

def bTxt : List (List Char) := [chars "#include \"c.h\"", chars "#include <vector>"]

def cTxt : List (List Char) := []

def bInc : Include := Include.mk (chars "\"b.h\"")

def cInc : Include := Include.mk (chars "\"c.h\"")

def vInc : Include := Include.mk (chars "<vector>")

def aInc : Include := Include.mk (chars "\"a.h\"")

def sInc : Include := Include.mk (chars "\"s.h\"")

def fooInc : Include := Include.mk (chars "\"foo.h\"")

def filesABC : List (FPath × List (List Char)) := [(aF, aTxt), (bF, bTxt), (cF, cTxt)]

def filesACB : List (FPath × List (List Char)) := [(aF, aTxt), (cF, cTxt), (bF, bTxt)]

def filesBAC : List (FPath × List (List Char)) := [(bF, bTxt), (aF, aTxt), (cF, cTxt)]

def filesBCA : List (FPath × List (List Char)) := [(bF, bTxt), (cF, cTxt), (aF, aTxt)]

def filesCAB : List (FPath × List (List Char)) := [(cF, cTxt), (aF, aTxt), (bF, bTxt)]

def filesCBA : List (FPath × List (List Char)) := [(cF, cTxt), (bF, bTxt), (aF, aTxt)]

def aH : FPath := FPath.mk (chars "") (chars "a.h")

def sH : FPath := FPath.mk (chars "") (chars "s.h")

def cycleFiles : List (FPath × List (List Char)) :=
  [(aH, [chars "#include \"b.h\""]), (bF, [chars "#include \"a.h\""])]

def selfFiles : List (FPath × List (List Char)) :=
  [(sH, [chars "#include \"s.h\""])]

def fooSrc : FPath := FPath.mk (chars "src") (chars "foo.h")

def fooLib : FPath := FPath.mk (chars "lib") (chars "foo.h")

def mainF : FPath := FPath.mk (chars "") (chars "main.cpp")

def dupFiles : List (FPath × List (List Char)) :=
  [(fooSrc, []), (fooLib, []), (mainF, [chars "#include \"foo.h\""])]

/-- A two-file input whose first file holds a malformed directive for a
different name than the second file's. -/
def twoBadFiles : List (FPath × List (List Char)) :=
  [(aF, [chars "#include bar.h"]), (bF, [chars "#include foo.h"])]

/-- Fixture flat table for the witness of the termination lemma. -/
def cycFlat : List (FPath × List Include) := [(aH, [bInc]), (bF, [aInc])]

/-- Fixture include map for the witness of the termination lemma. -/
def noneMap : Include → Option FPath := fun _ => none

/-- What the traversal loop amounts to once one observes that its
descend branch can never fire (every resolved file is in
`files_being_searched` until it is memoized): each frame is popped in
turn and collected against the memo built so far. -/
def simpleRun (flat : List (FPath × List Include)) (imap : Include → Option FPath) :
    List (FPath × List Include) → List (FPath × List Include) →
    List (FPath × List Include)
  | [], incl => incl
  | (p, _) :: rest, incl =>
    simpleRun flat imap rest (incl ++ [(p, collectAll flat imap incl p)])

/-- Fixture enumerations of the observed-include set for the
determinism witness. -/
def enumW1 : List Include := [bInc, cInc]

/-- The same set enumerated in the opposite order. -/
def enumW2 : List Include := [cInc, bInc]

/-- Fixture flat table for the determinism witness. -/
def wFlat : List (FPath × List Include) := [(aF, [bInc]), (bF, [cInc, vInc]), (cF, [])]

/-- Fixture input for the malformed-directive witness: a clean first
file, then a file whose second line is `#include foo.h`. -/
def w8files : List (FPath × List (List Char)) :=
  [(aF, [chars "// leading comment"]),
   (bF, [chars "text", chars "#include foo.h", chars "after"])]

/-- C1: the spec claims the inclusive list of `F` is always `F`'s
direct includes followed by the transitive lists of its resolved direct
includes, independent of input order.  The code initializes
`files_being_searched` to the full input set, so the descend branch of
the depth-first search never fires and each file only picks up the
lists already memoized when it is popped — files are popped in reverse
input order.  Supplying the scenario as (c.h, b.h, a.cpp) makes
`a.cpp`'s list stop at its direct include, while (a.cpp, b.h, c.h)
yields the full transitive list: the result is order-dependent and not
the claimed expansion. -/
theorem c1_inclusive_lists_depend_on_input_order :
    getIncludesLists filesCBA true =
      .ok [(aF, [bInc]), (bF, [cInc, vInc]), (cF, [])] ∧
    getIncludesLists filesABC true =
      .ok [(cF, []), (bF, [cInc, vInc]), (aF, [bInc, cInc, vInc])] := by
  constructor
  · decide
  · decide

/-- C2: direct-only mode does give `a.cpp ↦ [\"b.h\"]` for every one of
the six supply orders, but inclusive mode gives `a.cpp` the claimed
list [\"b.h\", \"c.h\", `<vector>`] only when `a.cpp` is supplied
before `b.h`; supplied as (c.h, b.h, a.cpp) the code stops at
[\"b.h\"]. -/
theorem c2_concrete_three_file_run :
    resultLookup (getIncludesLists filesABC false) aF = some [bInc] ∧
    resultLookup (getIncludesLists filesACB false) aF = some [bInc] ∧
    resultLookup (getIncludesLists filesBAC false) aF = some [bInc] ∧
    resultLookup (getIncludesLists filesBCA false) aF = some [bInc] ∧
    resultLookup (getIncludesLists filesCAB false) aF = some [bInc] ∧
    resultLookup (getIncludesLists filesCBA false) aF = some [bInc] ∧
    resultLookup (getIncludesLists filesCBA true) aF = some [bInc] ∧
    resultLookup (getIncludesLists filesABC true) aF = some [bInc, cInc, vInc] := by
  refine ⟨?_, ?_, ?_, ?_, ?_, ?_, ?_, ?_⟩ <;> decide

/-- C4: the spec claims non-matching lines are ignored without error,
naming a lone `#` and a bare `#include`.  In the code `parts[0]` and
`parts[1]` raise `IndexError` on exactly those two lines; other
non-matching lines are indeed skipped. -/
theorem c4_bare_hash_raises_index_error :
    processLine (chars "#") = .error RunErr.indexError ∧
    processLine (chars "#include") = .error RunErr.indexError ∧
    getIncludesLists [(aF, [chars "#"])] false = .error RunErr.indexError ∧
    processLine (chars "int main() \x7b return 0; \x7d") = .ok none ∧
    processLine (chars "#pragma once") = .ok none ∧
    processLine (chars "   ") = .ok none := by
  refine ⟨?_, ?_, ?_, ?_, ?_, ?_⟩ <;> decide

/-- C5 counterexample: the claim says construction succeeds only for a
matching pair of delimiters and that the empty string fails with
`ValueError`.  The one-character string consisting of a double quote is
its own first and last character, so `Include('\"')` succeeds, and the
empty string raises `IndexError` instead. -/
theorem c5_lone_quote_accepted :
    mkInclude (chars "\"") = .ok (Include.mk (chars "\"")) ∧
    mkInclude [] = .error RunErr.indexError := by
  constructor
  · decide
  · decide

/-- C8 counterexample: an input set that contains the line
`#include foo.h` in its second file but a malformed `#include bar.h`
in its first file fails naming `bar.h`, not `foo.h`. -/
theorem c8_earlier_file_error_wins :
    getIncludesLists twoBadFiles true = .error (RunErr.valueError (chars "bar.h")) ∧
    RunErr.valueError (chars "bar.h") ≠ RunErr.valueError (chars "foo.h") := by
  constructor
  · decide
  · decide

/-! Association-list groundwork. -/

theorem alookup_append_right {α β : Type} [DecidableEq α] (d : List (α × β)) (k : α)
    (v : β) (x : α) (hk : k ∉ d.map Prod.fst) :
    alookup (d ++ [(k, v)]) x = if x = k then some v else alookup d x := by
  induction d with
  | nil => simp [alookup]
  | cons hd tl ih =>
    obtain ⟨a, b⟩ := hd
    have hka : ¬ (k = a) := by
      intro h
      exact hk (by simp [h])
    have hktl : k ∉ tl.map Prod.fst := by
      intro h
      exact hk (by simp [h])
    by_cases hxa : x = a
    · have hxk : ¬ (x = k) := by
        intro h
        exact hka (h.symm.trans hxa)
      have hak : ¬ (a = k) := fun h => hka h.symm
      simp [alookup, hxa, hxk, hak]
    · simp [alookup, hxa, ih hktl]

theorem alookup_map_upd {α β : Type} [DecidableEq α] (d : List (α × β)) (k x : α)
    (v : β) :
    alookup (d.map (fun pr => if pr.1 = k then (pr.1, v) else pr)) x =
      if x = k then (if k ∈ d.map Prod.fst then some v else none)
      else alookup d x := by
  induction d with
  | nil => simp [alookup]
  | cons hd tl ih =>
    obtain ⟨a, b⟩ := hd
    rw [List.map_cons]
    by_cases hak : a = k
    · rw [if_pos (show (a, b).1 = k from hak)]
      by_cases hxa : x = a
      · have hxk : x = k := hxa.trans hak
        simp [alookup, hxa, hxk, hak]
      · have hxk : ¬ (x = k) := fun h => hxa (h.trans hak.symm)
        simp [alookup, hxa, hxk, ih]
    · rw [if_neg (show ¬ ((a, b).1 = k) from hak)]
      have hka : ¬ (k = a) := fun h => hak h.symm
      by_cases hxa : x = a
      · have hxk : ¬ (x = k) := fun h => hak (hxa.symm.trans h)
        simp [alookup, hxa, hxk, hak]
      · by_cases hxk : x = k
        · subst hxk
          rw [List.map_cons]
          simp only [alookup, if_neg hxa, ih, if_pos rfl]
          by_cases hm : x ∈ List.map Prod.fst tl
          · have hm2 : x ∈ a :: List.map Prod.fst tl := List.mem_cons_of_mem a hm
            rw [if_pos hm, if_pos hm2]
          · have hm2 : ¬ (x ∈ a :: List.map Prod.fst tl) := by
              simp [List.mem_cons, hka, hm]
            rw [if_neg hm, if_neg hm2]
        · simp [alookup, hxa, hxk, ih]

theorem alookup_dictInsert {α β : Type} [DecidableEq α] (d : List (α × β)) (k x : α)
    (v : β) :
    alookup (dictInsert d k v) x = if x = k then some v else alookup d x := by
  unfold dictInsert
  by_cases hk : k ∈ d.map Prod.fst
  · rw [if_pos hk, alookup_map_upd]
    simp [hk]
  · rw [if_neg hk, alookup_append_right d k v x hk]

theorem keys_dictInsert {α β : Type} [DecidableEq α] (d : List (α × β)) (k x : α)
    (v : β) :
    x ∈ (dictInsert d k v).map Prod.fst ↔ x ∈ d.map Prod.fst ∨ x = k := by
  unfold dictInsert
  by_cases hk : k ∈ d.map Prod.fst
  · rw [if_pos hk]
    have hkeys : (d.map (fun pr => if pr.1 = k then (pr.1, v) else pr)).map Prod.fst =
        d.map Prod.fst := by
      rw [List.map_map]
      apply List.map_congr_left
      intro pr _
      by_cases h : pr.1 = k <;> simp [h]
    rw [hkeys]
    constructor
    · exact Or.inl
    · rintro (h | h)
      · exact h
      · exact h ▸ hk
  · rw [if_neg hk]
    simp

theorem alookup_mem {α β : Type} [DecidableEq α] :
    ∀ (d : List (α × β)) (x : α) (v : β), alookup d x = some v → (x, v) ∈ d := by
  intro d
  induction d with
  | nil => intro x v h; simp [alookup] at h
  | cons hd tl ih =>
    obtain ⟨a, b⟩ := hd
    intro x v h
    by_cases hxa : x = a
    · simp [alookup, hxa] at h
      simp [hxa, h]
    · simp [alookup, hxa] at h
      exact List.mem_cons_of_mem _ (ih x v h)

theorem mem_dictInsert {α β : Type} [DecidableEq α] (d : List (α × β)) (k : α)
    (v : β) :
    ∀ pr ∈ dictInsert d k v, pr ∈ d ∨ pr = (k, v) := by
  intro pr hpr
  unfold dictInsert at hpr
  by_cases hk : k ∈ d.map Prod.fst
  · rw [if_pos hk] at hpr
    obtain ⟨pr0, hpr0, heq⟩ := List.mem_map.mp hpr
    by_cases h : pr0.1 = k
    · right
      rw [← heq]
      simp [h]
    · left
      rw [← heq]
      simpa [h] using hpr0
  · rw [if_neg hk] at hpr
    rcases List.mem_append.mp hpr with h | h
    · exact Or.inl h
    · exact Or.inr (by simpa using h)

/-! Properties of `_build_include_map`. -/

theorem build_error_shape (avail : List FPath) :
    ∀ (enum : List Include) (acc : List (Include × FPath)) (e : RunErr),
      buildIncludeMapLoop avail enum acc = .error e →
      ∃ i ∈ enum, e = RunErr.ambiguousName i ∧ 2 ≤ (candidates avail i).length := by
  intro enum
  induction enum with
  | nil =>
    intro acc e h
    simp [buildIncludeMapLoop] at h
  | cons i rest ih =>
    intro acc e h
    rcases hc : candidates avail i with _ | ⟨p, _ | ⟨q, tl⟩⟩
    · simp only [buildIncludeMapLoop, hc] at h
      obtain ⟨j, hj, he, hlen⟩ := ih acc e h
      exact ⟨j, List.mem_cons_of_mem i hj, he, hlen⟩
    · simp only [buildIncludeMapLoop, hc] at h
      obtain ⟨j, hj, he, hlen⟩ := ih (dictInsert acc i p) e h
      exact ⟨j, List.mem_cons_of_mem i hj, he, hlen⟩
    · simp only [buildIncludeMapLoop, hc, Except.error.injEq] at h
      refine ⟨i, List.mem_cons_self i rest, h.symm, ?_⟩
      rw [hc]
      simp

theorem build_ok_of_no_ambiguous (avail : List FPath) :
    ∀ (enum : List Include) (acc : List (Include × FPath)),
      (∀ i ∈ enum, (candidates avail i).length ≤ 1) →
      ∃ m, buildIncludeMapLoop avail enum acc = .ok m := by
  intro enum
  induction enum with
  | nil =>
    intro acc _
    exact ⟨acc, rfl⟩
  | cons i rest ih =>
    intro acc hlen
    have hi := hlen i (List.mem_cons_self i rest)
    rcases hc : candidates avail i with _ | ⟨p, _ | ⟨q, tl⟩⟩
    · obtain ⟨m, hm⟩ := ih acc (fun j hj => hlen j (List.mem_cons_of_mem i hj))
      refine ⟨m, ?_⟩
      simp only [buildIncludeMapLoop, hc]
      exact hm
    · obtain ⟨m, hm⟩ := ih (dictInsert acc i p)
        (fun j hj => hlen j (List.mem_cons_of_mem i hj))
      refine ⟨m, ?_⟩
      simp only [buildIncludeMapLoop, hc]
      exact hm
    · rw [hc] at hi
      simp at hi

theorem build_fails_of_ambiguous (avail : List FPath) :
    ∀ (enum : List Include) (acc : List (Include × FPath)) (i : Include),
      i ∈ enum → 2 ≤ (candidates avail i).length →
      ∀ m, buildIncludeMapLoop avail enum acc ≠ .ok m := by
  intro enum
  induction enum with
  | nil =>
    intro acc i hi
    simp at hi
  | cons j rest ih =>
    intro acc i hi hambig m hok
    rcases hc : candidates avail j with _ | ⟨p, _ | ⟨q, tl⟩⟩
    · simp only [buildIncludeMapLoop, hc] at hok
      rcases List.mem_cons.mp hi with hij | hirest
      · rw [hij, hc] at hambig
        simp at hambig
      · exact ih acc i hirest hambig m hok
    · simp only [buildIncludeMapLoop, hc] at hok
      rcases List.mem_cons.mp hi with hij | hirest
      · rw [hij, hc] at hambig
        simp at hambig
      · exact ih (dictInsert acc j p) i hirest hambig m hok
    · simp only [buildIncludeMapLoop, hc] at hok
      exact Except.noConfusion hok

theorem build_lookup (avail : List FPath) :
    ∀ (enum : List Include) (acc m : List (Include × FPath)),
      buildIncludeMapLoop avail enum acc = .ok m →
      (∀ x w, alookup acc x = some w → soloCandidate avail x = some w) →
      ((∀ x w, alookup m x = some w → soloCandidate avail x = some w) ∧
       (∀ x, x ∈ enum → alookup m x = soloCandidate avail x) ∧
       (∀ x, x ∉ enum → alookup m x = alookup acc x)) := by
  intro enum
  induction enum with
  | nil =>
    intro acc m hok hinv
    simp only [buildIncludeMapLoop, Except.ok.injEq] at hok
    subst hok
    exact ⟨hinv, fun x hx => absurd hx (List.not_mem_nil x), fun x _ => rfl⟩
  | cons i rest ih =>
    intro acc m hok hinv
    rcases hc : candidates avail i with _ | ⟨p, _ | ⟨q, tl⟩⟩
    · simp only [buildIncludeMapLoop, hc] at hok
      obtain ⟨P1, P2, P3⟩ := ih acc m hok hinv
      have hsolo : soloCandidate avail i = none := by
        simp [soloCandidate, hc]
      refine ⟨P1, ?_, ?_⟩
      · intro x hx
        rcases List.mem_cons.mp hx with hxi | hxr
        · subst hxi
          by_cases hxr2 : x ∈ rest
          · exact P2 x hxr2
          · rw [P3 x hxr2, hsolo]
            cases hac : alookup acc x with
            | none => rfl
            | some w => exact absurd (hinv x w hac) (by simp [hsolo])
        · exact P2 x hxr
      · intro x hx
        exact P3 x (fun h => hx (List.mem_cons_of_mem i h))
    · simp only [buildIncludeMapLoop, hc] at hok
      have hsolo : soloCandidate avail i = some p := by
        simp [soloCandidate, hc]
      have hinv2 : ∀ x w, alookup (dictInsert acc i p) x = some w →
          soloCandidate avail x = some w := by
        intro x w hxw
        rw [alookup_dictInsert] at hxw
        by_cases hxi : x = i
        · rw [if_pos hxi] at hxw
          have hwp : w = p := by
            injection hxw with h
            exact h.symm
          rw [hxi, hwp]
          exact hsolo
        · rw [if_neg hxi] at hxw
          exact hinv x w hxw
      obtain ⟨P1, P2, P3⟩ := ih (dictInsert acc i p) m hok hinv2
      refine ⟨P1, ?_, ?_⟩
      · intro x hx
        rcases List.mem_cons.mp hx with hxi | hxr
        · subst hxi
          by_cases hxr2 : x ∈ rest
          · exact P2 x hxr2
          · rw [P3 x hxr2, alookup_dictInsert, if_pos rfl, hsolo]
        · exact P2 x hxr
      · intro x hx
        have hxi : ¬ (x = i) := by
          intro h
          exact hx (by rw [h]; exact List.mem_cons_self i rest)
        have hxr : x ∉ rest := fun h => hx (List.mem_cons_of_mem i h)
        rw [P3 x hxr, alookup_dictInsert, if_neg hxi]
    · simp only [buildIncludeMapLoop, hc] at hok
      exact Except.noConfusion hok

theorem build_values_in_avail (avail : List FPath) :
    ∀ (enum : List Include) (acc m : List (Include × FPath)),
      buildIncludeMapLoop avail enum acc = .ok m →
      (∀ pr ∈ acc, pr.2 ∈ avail) → ∀ pr ∈ m, pr.2 ∈ avail := by
  intro enum
  induction enum with
  | nil =>
    intro acc m hok hacc
    simp only [buildIncludeMapLoop, Except.ok.injEq] at hok
    subst hok
    exact hacc
  | cons i rest ih =>
    intro acc m hok hacc
    rcases hc : candidates avail i with _ | ⟨p, _ | ⟨q, tl⟩⟩
    · simp only [buildIncludeMapLoop, hc] at hok
      exact ih acc m hok hacc
    · simp only [buildIncludeMapLoop, hc] at hok
      have hp : p ∈ avail := by
        have hmem : p ∈ candidates avail i := by
          rw [hc]
          exact List.mem_singleton_self p
        exact List.mem_of_mem_filter hmem
      refine ih (dictInsert acc i p) m hok ?_
      intro pr hpr
      rcases mem_dictInsert acc i p pr hpr with h | h
      · exact hacc pr h
      · rw [h]
        exact hp
    · simp only [buildIncludeMapLoop, hc] at hok
      exact Except.noConfusion hok

theorem imap_values_in_avail (avail : List FPath) (enum : List Include)
    (m : List (Include × FPath)) (h : buildIncludeMapLoop avail enum [] = .ok m) :
    ∀ x q, alookup m x = some q → q ∈ avail := by
  intro x q hxq
  have hmem := alookup_mem m x q hxq
  exact build_values_in_avail avail enum [] m h
    (by intro pr hpr; simp at hpr) (x, q) hmem

/-! The traversal loop.  Because `files_being_searched` starts as the
whole key set and a file leaves it exactly when it is memoized, every
file an include can resolve to is at all times either in
`files_being_searched` or memoized, so the descend branch never fires
and the loop reduces to `simpleRun`. -/

theorem deepStep_eq_simpleRun (flat : List (FPath × List Include))
    (imap : Include → Option FPath) :
    ∀ (fuel : Nat) (stack : List (FPath × List Include)) (bs : List FPath)
      (incl : List (FPath × List Include)),
      (∀ i q, imap i = some q → q ∈ bs ∨ q ∈ incl.map Prod.fst) →
      deepCost stack ≤ fuel →
      deepStep flat imap fuel stack bs incl = simpleRun flat imap stack incl := by
  intro fuel
  induction fuel with
  | zero =>
    intro stack bs incl hinv hcost
    have hstack : stack = [] := by
      cases stack with
      | nil => rfl
      | cons f rest =>
        exfalso
        simp [deepCost] at hcost
    subst hstack
    simp [deepStep, simpleRun]
  | succ n ih =>
    intro stack bs incl hinv hcost
    cases stack with
    | nil => simp [deepStep, simpleRun]
    | cons frame rest =>
      obtain ⟨p, is⟩ := frame
      cases is with
      | nil =>
        have hinv2 : ∀ i q, imap i = some q →
            q ∈ bs.erase p ∨
              q ∈ (incl ++ [(p, collectAll flat imap incl p)]).map Prod.fst := by
          intro i q hiq
          rcases hinv i q hiq with hq | hq
          · by_cases hqp : q = p
            · right
              simp [hqp]
            · left
              exact (List.mem_erase_of_ne hqp).mpr hq
          · right
            simp only [List.map_append, List.mem_append]
            exact Or.inl hq
        have hcost2 : deepCost rest ≤ n := by
          simp [deepCost] at hcost ⊢
          omega
        simp only [deepStep]
        rw [ih rest (bs.erase p) _ hinv2 hcost2]
        simp [simpleRun]
      | cons i is2 =>
        have hcost2 : deepCost ((p, is2) :: rest) ≤ n := by
          simp [deepCost] at hcost ⊢
          omega
        have hrhs : simpleRun flat imap ((p, i :: is2) :: rest) incl =
            simpleRun flat imap ((p, is2) :: rest) incl := by
          simp [simpleRun]
        cases hres : imap i with
        | none =>
          simp only [deepStep, hres]
          rw [ih _ bs incl hinv hcost2, hrhs]
        | some q =>
          have hcond : q ∈ incl.map Prod.fst ∨ q ∈ bs := (hinv i q hres).symm
          simp only [deepStep, hres, if_pos hcond]
          rw [ih _ bs incl hinv hcost2, hrhs]

theorem simpleRun_keys (flat : List (FPath × List Include))
    (imap : Include → Option FPath) :
    ∀ (stack incl : List (FPath × List Include)),
      (simpleRun flat imap stack incl).map Prod.fst =
        incl.map Prod.fst ++ stack.map Prod.fst := by
  intro stack
  induction stack with
  | nil =>
    intro incl
    simp [simpleRun]
  | cons f rest ih =>
    intro incl
    obtain ⟨p, l⟩ := f
    simp only [simpleRun]
    rw [ih]
    simp

theorem getFlatAux_keys :
    ∀ (files : List (FPath × List (List Char))) (acc flat : List (FPath × List Include)),
      getFlatAux files acc = .ok flat →
      ∀ p, p ∈ flat.map Prod.fst ↔ p ∈ acc.map Prod.fst ∨ p ∈ files.map Prod.fst := by
  intro files
  induction files with
  | nil =>
    intro acc flat h p
    simp only [getFlatAux, Except.ok.injEq] at h
    subst h
    simp
  | cons f rest ih =>
    intro acc flat h p
    obtain ⟨q, content⟩ := f
    cases hit : iterIncludes content with
    | error e =>
      simp only [getFlatAux, hit] at h
      exact Except.noConfusion h
    | ok incs =>
      simp only [getFlatAux, hit] at h
      have hih := ih (dictInsert acc q incs) flat h p
      rw [keys_dictInsert] at hih
      simp only [List.map_cons, List.mem_cons]
      rw [hih]
      tauto

theorem getDeepWithEnum_ok_shape (enum : List Include)
    (flat m0 : List (FPath × List Include))
    (h : getDeepWithEnum enum flat = .ok m0) :
    ∃ mp, buildIncludeMapLoop (flat.map Prod.fst) enum [] = .ok mp ∧
      m0 = deepRun flat (alookup mp) (deepCost flat.reverse) := by
  unfold getDeepWithEnum at h
  cases hb : buildIncludeMapLoop (flat.map Prod.fst) enum [] with
  | error e =>
    rw [hb] at h
    exact Except.noConfusion h
  | ok mp =>
    rw [hb] at h
    refine ⟨mp, rfl, ?_⟩
    simp only [Except.ok.injEq] at h
    exact h.symm

theorem deepRun_eq_simpleRun (flat : List (FPath × List Include))
    (imap : Include → Option FPath) (g : Nat)
    (hval : ∀ i q, imap i = some q → q ∈ flat.map Prod.fst)
    (hg : deepCost flat.reverse ≤ g) :
    deepRun flat imap g = simpleRun flat imap flat.reverse [] := by
  unfold deepRun
  apply deepStep_eq_simpleRun flat imap g flat.reverse (flat.map Prod.fst) []
  · intro i q hiq
    exact Or.inl (hval i q hiq)
  · exact hg

/-! Error propagation: the first raising line aborts its file, the
first raising file aborts the run, and a raising flat phase aborts
`get_includes_lists` in either mode. -/

theorem iter_error_of_mem :
    ∀ (content : List (List Char)) (line : List Char), line ∈ content →
      exOk (processLine line) = false → exOk (iterIncludes content) = false := by
  intro content
  induction content with
  | nil =>
    intro line h
    simp at h
  | cons hd tl ih =>
    intro line hline hbad
    rcases List.mem_cons.mp hline with h | h
    · subst h
      cases hp : processLine line with
      | error e => simp [iterIncludes, hp, exOk]
      | ok o =>
        rw [hp] at hbad
        simp [exOk] at hbad
    · cases hp : processLine hd with
      | error e => simp [iterIncludes, hp, exOk]
      | ok o =>
        cases o with
        | none =>
          simp only [iterIncludes, hp]
          exact ih line h hbad
        | some i =>
          simp only [iterIncludes, hp]
          have hrec := ih line h hbad
          cases hit : iterIncludes tl with
          | error e => simp [exOk]
          | ok l =>
            rw [hit] at hrec
            simp [exOk] at hrec

theorem flat_error_of_mem :
    ∀ (files : List (FPath × List (List Char))) (acc : List (FPath × List Include))
      (pr : FPath × List (List Char)), pr ∈ files →
      exOk (iterIncludes pr.2) = false → exOk (getFlatAux files acc) = false := by
  intro files
  induction files with
  | nil =>
    intro acc pr h
    simp at h
  | cons f rest ih =>
    intro acc pr hpr hbad
    obtain ⟨q, content⟩ := f
    rcases List.mem_cons.mp hpr with h | h
    · rw [h] at hbad
      cases hit : iterIncludes content with
      | error e => simp [getFlatAux, hit, exOk]
      | ok incs =>
        rw [show (q, content).2 = content from rfl, hit] at hbad
        simp [exOk] at hbad
    · cases hit : iterIncludes content with
      | error e => simp [getFlatAux, hit, exOk]
      | ok incs =>
        simp only [getFlatAux, hit]
        exact ih (dictInsert acc q incs) pr h hbad

theorem getIncludes_exOk_of_flat (files : List (FPath × List (List Char))) (b : Bool)
    (h : exOk (getFlatIncludesLists files) = false) :
    exOk (getIncludesLists files b) = false := by
  unfold getIncludesLists
  cases hf : getFlatIncludesLists files with
  | error e => simp [exOk]
  | ok flat =>
    rw [hf] at h
    simp [exOk] at h

theorem iter_first_error :
    ∀ (c1 : List (List Char)) (bad : List Char) (c2 : List (List Char)) (e : RunErr),
      processLine bad = .error e →
      (∀ ln ∈ c1, exOk (processLine ln) = true) →
      iterIncludes (c1 ++ bad :: c2) = .error e := by
  intro c1
  induction c1 with
  | nil =>
    intro bad c2 e hbad _
    simp only [List.nil_append, iterIncludes, hbad]
  | cons hd tl ih =>
    intro bad c2 e hbad hclean
    have hhd := hclean hd (List.mem_cons_self hd tl)
    cases hp : processLine hd with
    | error e2 =>
      rw [hp] at hhd
      simp [exOk] at hhd
    | ok o =>
      have hrest := ih bad c2 e hbad
        (fun ln hln => hclean ln (List.mem_cons_of_mem hd hln))
      cases o with
      | none =>
        simp only [List.cons_append, iterIncludes, hp]
        exact hrest
      | some i =>
        simp only [List.cons_append, iterIncludes, hp]
        rw [show iterIncludes (tl.append (bad :: c2)) = Except.error e from hrest]

theorem flat_first_error :
    ∀ (pre : List (FPath × List (List Char))) (p : FPath) (content : List (List Char))
      (post : List (FPath × List (List Char))) (e : RunErr)
      (acc : List (FPath × List Include)),
      iterIncludes content = .error e →
      (∀ f ∈ pre, exOk (iterIncludes f.2) = true) →
      getFlatAux (pre ++ (p, content) :: post) acc = .error e := by
  intro pre
  induction pre with
  | nil =>
    intro p content post e acc hbad _
    simp only [List.nil_append, getFlatAux, hbad]
  | cons f rest ih =>
    intro p content post e acc hbad hclean
    obtain ⟨q, qcont⟩ := f
    have hq : exOk (iterIncludes qcont) = true :=
      hclean (q, qcont) (List.mem_cons_self _ _)
    cases hit : iterIncludes qcont with
    | error e2 =>
      rw [hit] at hq
      simp [exOk] at hq
    | ok incs =>
      simp only [List.cons_append, getFlatAux, hit]
      exact ih p content post e (dictInsert acc q incs) hbad
        (fun f2 hf2 => hclean f2 (List.mem_cons_of_mem _ hf2))

theorem getIncludes_of_flat_error (files : List (FPath × List (List Char))) (b : Bool)
    (e : RunErr) (h : getFlatIncludesLists files = .error e) :
    getIncludesLists files b = .error e := by
  unfold getIncludesLists
  rw [h]

theorem getDeepWithEnum_ok_iff (enum : List Include)
    (flat : List (FPath × List Include)) :
    (∃ r, getDeepWithEnum enum flat = .ok r) ↔
      ∀ i ∈ enum, (candidates (flat.map Prod.fst) i).length ≤ 1 := by
  constructor
  · rintro ⟨r, hr⟩
    obtain ⟨mp, hb, _⟩ := getDeepWithEnum_ok_shape enum flat r hr
    intro i hi
    by_contra hlen
    push_neg at hlen
    exact build_fails_of_ambiguous (flat.map Prod.fst) enum [] i hi (by omega) mp hb
  · intro hlen
    obtain ⟨mp, hb⟩ := build_ok_of_no_ambiguous (flat.map Prod.fst) enum [] hlen
    refine ⟨deepRun flat (alookup mp) (deepCost flat.reverse), ?_⟩
    unfold getDeepWithEnum
    rw [hb]

/-- C3: over any observed include set and any candidate file set, the
builder (a) only ever raises `AmbiguousName`, for an observed include
with two or more basename matches, (b) raises whenever such an include
exists, (c) otherwise returns a map sending each observed include with
exactly one match to that match and holding nothing for an observed
include with no match, and (d) matching looks at the unquoted name
only, so angle-bracket and quoted spellings of the same name match the
same candidates. -/
theorem c3_include_map_characterization (enum : List Include) (avail : List FPath) :
    (∀ e, buildIncludeMapLoop avail enum [] = .error e →
       ∃ i ∈ enum, e = RunErr.ambiguousName i ∧ 2 ≤ (candidates avail i).length) ∧
    ((∃ i ∈ enum, 2 ≤ (candidates avail i).length) →
       ∀ m, buildIncludeMapLoop avail enum [] ≠ .ok m) ∧
    ((∀ i ∈ enum, (candidates avail i).length ≤ 1) →
       ∃ m, buildIncludeMapLoop avail enum [] = .ok m ∧
         (∀ i ∈ enum, ∀ p, candidates avail i = [p] → alookup m i = some p) ∧
         (∀ i ∈ enum, candidates avail i = [] → alookup m i = none)) ∧
    (∀ i j : Include, i.unquoted = j.unquoted →
       candidates avail i = candidates avail j) := by
  have hinv0 : ∀ x w, alookup ([] : List (Include × FPath)) x = some w →
      soloCandidate avail x = some w := by
    intro x w hxw
    simp [alookup] at hxw
  refine ⟨?_, ?_, ?_, ?_⟩
  · intro e he
    exact build_error_shape avail enum [] e he
  · rintro ⟨i, hi, hlen⟩ m
    exact build_fails_of_ambiguous avail enum [] i hi hlen m
  · intro hlen
    obtain ⟨m, hm⟩ := build_ok_of_no_ambiguous avail enum [] hlen
    obtain ⟨_, P2, _⟩ := build_lookup avail enum [] m hm hinv0
    refine ⟨m, hm, ?_, ?_⟩
    · intro i hi p hc
      rw [P2 i hi]
      simp [soloCandidate, hc]
    · intro i hi hc
      rw [P2 i hi]
      simp [soloCandidate, hc]
  · intro i j h
    unfold candidates
    rw [h]

/-- C3 witness: a run over candidates `b.h` and `c.h` with observed
includes `\"b.h\"` and `<vector>` succeeds and maps them as required. -/
theorem c3_include_map_characterization_witness :
    ∃ m, buildIncludeMapLoop [bF, cF] [bInc, vInc] [] = .ok m ∧
      (∀ i ∈ [bInc, vInc], ∀ p, candidates [bF, cF] i = [p] → alookup m i = some p) ∧
      (∀ i ∈ [bInc, vInc], candidates [bF, cF] i = [] → alookup m i = none) :=
  (c3_include_map_characterization [bInc, vInc] [bF, cF]).2.2.1 (by decide)

/-- C5 amended: construction succeeds iff the token has length at
least two with `<`/`>` or `\"`/`\"` as its first and last characters,
or is the single character `\"` (whose first and last character
coincide); the empty token raises `IndexError` rather than
`ValueError`; every other rejected token raises `ValueError` naming
the token. -/
theorem c5_delimiter_characterization (s : List Char) :
    (exOk (mkInclude s) = true ↔
       ((2 ≤ s.length ∧ ((s.head? = some '<' ∧ s.getLast? = some '>') ∨
           (s.head? = some '"' ∧ s.getLast? = some '"'))) ∨ s = ['"'])) ∧
    (s = [] → mkInclude s = .error RunErr.indexError) ∧
    (s ≠ [] → ∀ e, mkInclude s = .error e → e = RunErr.valueError s) := by
  rcases s with _ | ⟨c0, _ | ⟨c1, cs⟩⟩
  · refine ⟨?_, fun _ => rfl, fun h => absurd rfl h⟩
    simp [mkInclude, exOk]
  · have hmk : mkInclude [c0] =
        if (c0 = '<' ∧ c0 = '>') ∨ (c0 = '"' ∧ c0 = '"') then
          Except.ok (Include.mk [c0])
        else Except.error (RunErr.valueError [c0]) := rfl
    refine ⟨?_, fun h => by simp at h, ?_⟩
    · by_cases hc : (c0 = '<' ∧ c0 = '>') ∨ (c0 = '"' ∧ c0 = '"')
      · have hq : c0 = '"' := by
          rcases hc with ⟨h1, h2⟩ | ⟨h1, _⟩
          · rw [h1] at h2
            exact absurd h2 (by decide)
          · exact h1
        subst hq
        decide
      · rw [hmk, if_neg hc]
        constructor
        · intro hok
          simp [exOk] at hok
        · rintro (⟨h2, _⟩ | h)
          · simp at h2
          · have hq : c0 = '"' := by simpa using h
            exact absurd (Or.inr ⟨hq, hq⟩) hc
    · intro _ e he
      rw [hmk] at he
      by_cases hc : (c0 = '<' ∧ c0 = '>') ∨ (c0 = '"' ∧ c0 = '"')
      · rw [if_pos hc] at he
        exact Except.noConfusion he
      · rw [if_neg hc] at he
        injection he with h2
        exact h2.symm
  · cases hx : (c0 :: c1 :: cs).getLast? with
    | none =>
      exfalso
      have hs : (c0 :: c1 :: cs).getLast?.isSome = true := by
        rw [List.getLast?_isSome]
        simp
      rw [hx] at hs
      simp at hs
    | some x =>
      have hmk : mkInclude (c0 :: c1 :: cs) =
          if (c0 = '<' ∧ x = '>') ∨ (c0 = '"' ∧ x = '"') then
            Except.ok (Include.mk (c0 :: c1 :: cs))
          else Except.error (RunErr.valueError (c0 :: c1 :: cs)) := by
        unfold mkInclude
        rw [hx]
        simp only [List.head?_cons]
      have hhead : (c0 :: c1 :: cs).head? = some c0 := rfl
      have hlen : 2 ≤ (c0 :: c1 :: cs).length := by simp
      have hne : (c0 :: c1 :: cs) ≠ ['"'] := by simp
      refine ⟨?_, fun h => by simp at h, ?_⟩
      · rw [hmk]
        by_cases hc : (c0 = '<' ∧ x = '>') ∨ (c0 = '"' ∧ x = '"')
        · rw [if_pos hc]
          constructor
          · intro _
            left
            refine ⟨hlen, ?_⟩
            rcases hc with ⟨h1, h2⟩ | ⟨h1, h2⟩
            · refine Or.inl ⟨?_, ?_⟩
              · rw [hhead, h1]
              · rw [h2]
            · refine Or.inr ⟨?_, ?_⟩
              · rw [hhead, h1]
              · rw [h2]
          · intro _
            simp [exOk]
        · rw [if_neg hc]
          constructor
          · intro hok
            simp [exOk] at hok
          · rintro (⟨_, hd⟩ | h)
            · rw [hhead] at hd
              simp only [Option.some.injEq] at hd
              exact absurd hd hc
            · exact absurd h hne
      · intro _ e he
        rw [hmk] at he
        by_cases hc : (c0 = '<' ∧ x = '>') ∨ (c0 = '"' ∧ x = '"')
        · rw [if_pos hc] at he
          exact Except.noConfusion he
        · rw [if_neg hc] at he
          injection he with h2
          exact h2.symm

/-- C5 witness: a well-delimited token is accepted and the empty token
raises `IndexError`. -/
theorem c5_delimiter_characterization_witness :
    exOk (mkInclude (chars "<vector>")) = true ∧
    mkInclude [] = .error RunErr.indexError :=
  ⟨(c5_delimiter_characterization (chars "<vector>")).1.mpr (by decide),
   (c5_delimiter_characterization []).2.1 rfl⟩

/-- C6: the traversal terminates on every input — any fuel at least
the loop bound gives the same answer as the bound itself — and on the
concrete two-file cycle `a.h` includes `b.h` includes `a.h` the run
completes, `a.h`'s inclusive list contains the include of `b.h`, and
the self-reference appears at most once; self-inclusion also
completes. -/
theorem c6_cycles_terminate :
    (∀ (flat : List (FPath × List Include)) (imap : Include → Option FPath) (g : Nat),
       (∀ i q, imap i = some q → q ∈ flat.map Prod.fst) →
       deepCost flat.reverse ≤ g →
       deepRun flat imap g = deepRun flat imap (deepCost flat.reverse)) ∧
    getIncludesLists cycleFiles true = .ok [(bF, [aInc]), (aH, [bInc, aInc])] ∧
    getIncludesLists selfFiles true = .ok [(sH, [sInc])] ∧
    resultLookup (getIncludesLists cycleFiles true) aH = some [bInc, aInc] ∧
    bInc ∈ [bInc, aInc] ∧ [bInc, aInc].count aInc ≤ 1 := by
  refine ⟨?_, by decide, by decide, by decide, by decide, by decide⟩
  intro flat imap g hval hg
  rw [deepRun_eq_simpleRun flat imap g hval hg,
    deepRun_eq_simpleRun flat imap (deepCost flat.reverse) hval (le_refl _)]

/-- C6 witness: the termination statement applied to a concrete cyclic
flat table. -/
theorem c6_cycles_terminate_witness :
    deepRun cycFlat noneMap 12 = deepRun cycFlat noneMap (deepCost cycFlat.reverse) :=
  c6_cycles_terminate.1 cycFlat noneMap 12
    (fun i q h => by simp [noneMap] at h) (by decide)

/-- C7: the only internal choice of `_get_deep_includes_lists` is the
enumeration order of the Python `set` of observed includes; any two
enumerations of the same set succeed together and, on success, return
literally the same inclusive-lists mapping, so a rerun on the same
input yields the same output. -/
theorem c7_determinism (flat : List (FPath × List Include)) (enum1 enum2 : List Include)
    (hmem : ∀ i : Include, i ∈ enum1 ↔ i ∈ enum2) :
    ((∃ r, getDeepWithEnum enum1 flat = .ok r) ↔
      (∃ r, getDeepWithEnum enum2 flat = .ok r)) ∧
    (∀ r1 r2, getDeepWithEnum enum1 flat = .ok r1 →
      getDeepWithEnum enum2 flat = .ok r2 → r1 = r2) := by
  have hinv0 : ∀ x w, alookup ([] : List (Include × FPath)) x = some w →
      soloCandidate (flat.map Prod.fst) x = some w := by
    intro x w hxw
    simp [alookup] at hxw
  constructor
  · rw [getDeepWithEnum_ok_iff, getDeepWithEnum_ok_iff]
    constructor
    · intro h i hi
      exact h i ((hmem i).mpr hi)
    · intro h i hi
      exact h i ((hmem i).mp hi)
  · intro r1 r2 h1 h2
    obtain ⟨m1, hb1, hr1⟩ := getDeepWithEnum_ok_shape enum1 flat r1 h1
    obtain ⟨m2, hb2, hr2⟩ := getDeepWithEnum_ok_shape enum2 flat r2 h2
    obtain ⟨_, P2a, P3a⟩ := build_lookup (flat.map Prod.fst) enum1 [] m1 hb1 hinv0
    obtain ⟨_, P2b, P3b⟩ := build_lookup (flat.map Prod.fst) enum2 [] m2 hb2 hinv0
    have hfun : alookup m1 = alookup m2 := by
      funext x
      by_cases hx : x ∈ enum1
      · rw [P2a x hx, P2b x ((hmem x).mp hx)]
      · rw [P3a x hx, P3b x (fun h => hx ((hmem x).mpr h))]
    rw [hr1, hr2, hfun]

/-- C7 witness: two opposite enumerations of the observed-include set
of the three-file scenario succeed together. -/
theorem c7_determinism_witness :
    (∃ r, getDeepWithEnum enumW1 wFlat = .ok r) ↔
      (∃ r, getDeepWithEnum enumW2 wFlat = .ok r) :=
  (c7_determinism wFlat enumW1 enumW2
    (by intro i; simp [enumW1, enumW2, List.mem_cons]; tauto)).1

/-- C8 amended: an input set containing the line `#include foo.h`
always makes the whole run fail with no mapping produced, in either
mode; the error is `ValueError` naming `foo.h` provided no earlier
file and no earlier line of the same file raises first (the run
surfaces the first offending line in file order). -/
theorem c8_malformed_aborts_run (files : List (FPath × List (List Char))) (b : Bool) :
    ((∃ pr ∈ files, chars "#include foo.h" ∈ pr.2) →
       exOk (getIncludesLists files b) = false) ∧
    (∀ (pre : List (FPath × List (List Char))) (p : FPath)
       (c1 c2 : List (List Char)) (post : List (FPath × List (List Char))),
       files = pre ++ (p, c1 ++ chars "#include foo.h" :: c2) :: post →
       (∀ f ∈ pre, exOk (iterIncludes f.2) = true) →
       (∀ ln ∈ c1, exOk (processLine ln) = true) →
       getIncludesLists files b = .error (RunErr.valueError (chars "foo.h"))) := by
  constructor
  · rintro ⟨pr, hpr, hline⟩
    apply getIncludes_exOk_of_flat
    show exOk (getFlatAux files []) = false
    apply flat_error_of_mem files [] pr hpr
    apply iter_error_of_mem pr.2 _ hline
    decide
  · intro pre p c1 c2 post hfiles hpre hc1
    subst hfiles
    apply getIncludes_of_flat_error
    show getFlatAux (pre ++ (p, c1 ++ chars "#include foo.h" :: c2) :: post) [] =
      .error (RunErr.valueError (chars "foo.h"))
    apply flat_first_error pre p _ post _ [] ?_ hpre
    exact iter_first_error c1 _ c2 _ (by decide) hc1

/-- C8 witness: with a clean first file and a clean first line, the
run fails naming `foo.h`. -/
theorem c8_malformed_aborts_run_witness :
    getIncludesLists w8files true = .error (RunErr.valueError (chars "foo.h")) :=
  (c8_malformed_aborts_run w8files true).2 [(aF, [chars "// leading comment"])] bF
    [chars "text"] [chars "after"] [] (by decide) (by decide) (by decide)

/-- C9: whenever a run completes, in either mode, the key list of the
returned mapping holds exactly the input paths: every input file has
an entry and nothing else does. -/
theorem c9_result_keys_are_input_paths (files : List (FPath × List (List Char)))
    (b : Bool) (m : List (FPath × List Include))
    (h : getIncludesLists files b = .ok m) :
    ∀ p : FPath, p ∈ m.map Prod.fst ↔ p ∈ files.map Prod.fst := by
  intro p
  unfold getIncludesLists at h
  cases hf : getFlatIncludesLists files with
  | error e =>
    rw [hf] at h
    exact Except.noConfusion h
  | ok flat =>
    rw [hf] at h
    have hflat : ∀ q, q ∈ flat.map Prod.fst ↔ q ∈ files.map Prod.fst := by
      intro q
      have hkeys := getFlatAux_keys files [] flat hf q
      simpa using hkeys
    cases b with
    | false =>
      simp only [Bool.false_eq_true, if_false, Except.ok.injEq] at h
      subst h
      exact hflat p
    | true =>
      simp only [if_true] at h
      obtain ⟨mp, hb, hm⟩ := getDeepWithEnum_ok_shape (allIncludes flat) flat m h
      have hrun : deepRun flat (alookup mp) (deepCost flat.reverse) =
          simpleRun flat (alookup mp) flat.reverse [] :=
        deepRun_eq_simpleRun flat (alookup mp) _
          (imap_values_in_avail (flat.map Prod.fst) (allIncludes flat) mp hb)
          (le_refl _)
      rw [hm, hrun, simpleRun_keys]
      simp only [List.map_nil, List.nil_append, List.map_reverse, List.mem_reverse]
      exact hflat p

/-- C9 witness: applied to the three-file scenario in inclusive mode. -/
theorem c9_result_keys_are_input_paths_witness :
    aF ∈ ([(cF, ([] : List Include)), (bF, [cInc, vInc]),
      (aF, [bInc, cInc, vInc])].map Prod.fst) ↔ aF ∈ filesABC.map Prod.fst :=
  c9_result_keys_are_input_paths filesABC true
    [(cF, []), (bF, [cInc, vInc]), (aF, [bInc, cInc, vInc])] (by decide) aF

/-- C10: in direct-only mode `get_includes_lists` returns the flat
table as soon as parsing succeeds — `_build_include_map` is never
consulted — so two input files sharing a basename matched by some
include make inclusive mode fail with `AmbiguousName` while
direct-only mode succeeds on the same input. -/
theorem c10_direct_mode_skips_map :
    (∀ (files : List (FPath × List (List Char))) (flat : List (FPath × List Include)),
       getFlatIncludesLists files = .ok flat →
       getIncludesLists files false = .ok flat) ∧
    getIncludesLists dupFiles false =
      .ok [(fooSrc, []), (fooLib, []), (mainF, [fooInc])] ∧
    getIncludesLists dupFiles true = .error (RunErr.ambiguousName fooInc) := by
  refine ⟨?_, by decide, by decide⟩
  intro files flat h
  unfold getIncludesLists
  rw [h]
  simp

/-- C10 witness: the duplicate-basename layout succeeds in direct-only
mode. -/
theorem c10_direct_mode_skips_map_witness :
    getIncludesLists dupFiles false =
      .ok [(fooSrc, []), (fooLib, []), (mainF, [fooInc])] :=
  c10_direct_mode_skips_map.1 dupFiles
    [(fooSrc, []), (fooLib, []), (mainF, [fooInc])] (by decide)

end Headercount
